import Mathlib

/-!
Verification development for the erpnext-forex-integration (peasforex) app.

Part 1 embeds the data model and operations: the rate aggregation algorithm,
the sync planner, the sync executor with its store collaborators (all
modelled from the specification, since the Python backend is not part of
the JavaScript sources), and the client-side helpers
`peasforex.get_exchange_rate`, `add_default_pairs` and `get_chart_data`
(embedded directly from the JavaScript sources).

Rates are modelled as exact rationals (the system stores and displays
6-decimal fixed precision quantities); dates as naturals (ISO date strings
order lexicographically exactly as their numeric encodings).
-/

/-- Modelled from the spec: the rate types in §3, `rate_type ∈ {Spot,
Closing, MonthlyAverage, PrudencyHigh, PrudencyLow}`. -/
inductive RateType
  | Spot
  | Closing
  | MonthlyAverage
  | PrudencyHigh
  | PrudencyLow
  deriving DecidableEq, Repr

/-- Modelled from the spec: an Observation `{date, open, high, low, close}`
(§3); the `open` field is named `opening` because `open` is a Lean keyword. -/
structure Observation where
  date : Nat
  opening : ℚ
  high : ℚ
  low : ℚ
  close : ℚ
  deriving DecidableEq, Repr

/-- Modelled from the spec: aggregation contract violations (§7):
InsufficientData (empty input) and InvalidInput (duplicate dates). -/
inductive AggError
  | InsufficientData
  | InvalidInput
  deriving DecidableEq, Repr

/-- Modelled from the spec: the `{closing, average, high, low}` output of the
RateAggregator (§4.3). -/
structure MonthlyRates where
  closing : ℚ
  average : ℚ
  prudency_high : ℚ
  prudency_low : ℚ
  deriving DecidableEq, Repr

/-- Modelled from the spec: the RateAggregator (§4.3), a pure function from
an ordered sequence of daily observations to monthly rates.  Empty input
fails with InsufficientData; duplicate dates fail with InvalidInput;
otherwise closing is the close of the maximum-date observation, average the
mean of closes, prudency high/low the max/min of closes. -/
def aggregate (obs : List Observation) : Except AggError MonthlyRates :=
  match obs with
  | [] => .error .InsufficientData
  | x :: xs =>
    if ((x :: xs).map (fun o => o.date)).Nodup then
      let lastObs := xs.foldl (fun a b => if a.date < b.date then b else a) x
      .ok { closing := lastObs.close
            average := ((x :: xs).map (fun o => o.close)).sum / (((x :: xs).length : ℚ))
            prudency_high := xs.foldl (fun m o => max m o.close) x.close
            prudency_low := xs.foldl (fun m o => min m o.close) x.close }
    else .error .InvalidInput

/-- Modelled from the spec: a CurrencyPair configuration row (§3) with its
enabled flag and per-pair sync-type flags. -/
structure CurrencyPair where
  from_currency : String
  to_currency : String
  enabled : Bool
  sync_spot_daily : Bool
  sync_closing_monthly : Bool
  sync_average_monthly : Bool
  sync_prudency_monthly : Bool
  deriving DecidableEq, Repr

/-- Modelled from the spec: an ephemeral SyncJob `{pair, rate_type,
date_or_range}` (§3); `date` doubles as the month identifier for monthly
jobs. -/
structure SyncJob where
  from_currency : String
  to_currency : String
  rate_type : RateType
  date : Nat
  deriving DecidableEq, Repr

/-- Modelled from the spec: the configuration snapshot read by the planner
and executor (§6): ordered pair list, bidirectional-mode flag, and the
bounded retry budget of §4.4. -/
structure ForexConfig where
  pairs : List CurrencyPair
  bidirectional : Bool
  max_retries : Nat
  deriving DecidableEq, Repr

/-- Modelled from the spec: the three sync modes of §4.1 (daily spot,
monthly for the previous month, backfill of N month-groups). -/
inductive SyncMode
  | Daily (date : Nat)
  | Monthly (month : Nat)
  | Backfill (months : Nat) (end_month : Nat)
  deriving DecidableEq, Repr

/-- Modelled from the spec: the fixed deterministic rate-type processing
order Spot → Closing → Average → PrudencyHigh → PrudencyLow (§4.1). -/
def rateTypeOrder : List RateType :=
  [.Spot, .Closing, .MonthlyAverage, .PrudencyHigh, .PrudencyLow]

/-- Modelled from the spec: daily mode emits one Spot job per enabled pair
with `sync_spot_daily` set (§4.1). -/
def pairSpotJob (d : Nat) (p : CurrencyPair) : List SyncJob :=
  if p.sync_spot_daily then [⟨p.from_currency, p.to_currency, .Spot, d⟩] else []

/-- Modelled from the spec: monthly mode emits the
Closing/Average/PrudencyHigh/PrudencyLow job-group for a pair according to
its flags, in the fixed rate-type order (§4.1); the single prudency flag
covers both prudency rate types (§3). -/
def pairMonthJobs (m : Nat) (p : CurrencyPair) : List SyncJob :=
  (if p.sync_closing_monthly then [⟨p.from_currency, p.to_currency, .Closing, m⟩] else []) ++
  (if p.sync_average_monthly then [⟨p.from_currency, p.to_currency, .MonthlyAverage, m⟩] else []) ++
  (if p.sync_prudency_monthly then
    [⟨p.from_currency, p.to_currency, .PrudencyHigh, m⟩,
     ⟨p.from_currency, p.to_currency, .PrudencyLow, m⟩] else [])

/-- Modelled from the spec: the jobs one pair contributes in a given mode;
backfill emits N consecutive month-groups ending at `end_month` (§4.1). -/
def pairJobs (mode : SyncMode) (p : CurrencyPair) : List SyncJob :=
  match mode with
  | .Daily d => pairSpotJob d p
  | .Monthly m => pairMonthJobs m p
  | .Backfill n endM => (List.range n).flatMap (fun i => pairMonthJobs (endM + i + 1 - n) p)

/-- The enabled pairs of a configuration, in configuration order. -/
def enabledPairs (cfg : ForexConfig) : List CurrencyPair :=
  cfg.pairs.filter (fun p => p.enabled)

/-- Modelled from the spec: the SyncPlanner (§4.1) — only enabled pairs
produce jobs, pairs in configuration order, rate types in the fixed order
within each pair. -/
def sync_plan (cfg : ForexConfig) (mode : SyncMode) : List SyncJob :=
  (enabledPairs cfg).flatMap (pairJobs mode)

/-- Modelled from the spec: the RateSource failure kinds (§4.2);
RateLimited carries a suggested retry-after duration when known. -/
inductive SourceError
  | RateUnavailable
  | RateLimited (retry_after : Option Nat)
  | TransientNetworkError
  deriving DecidableEq, Repr

/-- Modelled from the spec: a RateSource reply — a single current spot
rate, a daily series for a month, or a typed failure (§4.2). -/
inductive SourceReply
  | spot (rate : ℚ)
  | series (obs : List Observation)
  | failure (e : SourceError)
  deriving DecidableEq, Repr

/-- Modelled from the spec: bounded retry on TransientNetworkError (§4.4).
The oracle maps (job index, attempt index) to a reply; the result pairs the
final reply with the number of RateSource calls made.  Backoff delays are
timing behaviour and are not modelled. -/
def fetchWithRetry (oracle : Nat → Nat → SourceReply) (idx : Nat) :
    Nat → Nat → SourceReply × Nat
  | 0, attempt => (oracle idx attempt, 1)
  | budget + 1, attempt =>
    match oracle idx attempt with
    | .failure .TransientNetworkError =>
      let r := fetchWithRetry oracle idx budget (attempt + 1)
      (r.1, r.2 + 1)
    | reply => (reply, 1)

/-- The final reply the executor acts on for job `idx`, after the bounded
retry loop. -/
def jobReply (cfg : ForexConfig) (oracle : Nat → Nat → SourceReply) (idx : Nat) : SourceReply :=
  (fetchWithRetry oracle idx cfg.max_retries 0).1

/-- Modelled from the spec: a live "current" exchange-rate record, upserted
keyed by pair and keeping the latest date's value (§4.4). -/
structure CurrentRecord where
  from_currency : String
  to_currency : String
  date : Nat
  exchange_rate : ℚ
  deriving DecidableEq, Repr

/-- Modelled from the spec: a historical RateRecord `{pair, rate_type, date,
value}` (§3), deduplicated by (pair, rate_type, date) (§4.4). -/
structure RateRecord where
  from_currency : String
  to_currency : String
  rate_type : RateType
  date : Nat
  value : ℚ
  deriving DecidableEq, Repr

/-- The upsert key of a current record: the pair (§4.4). -/
def keyCur (c : CurrentRecord) : String × String :=
  (c.from_currency, c.to_currency)

/-- The natural dedup key of a historical record: (pair, rate_type, date)
(§4.4). -/
def keyHist (r : RateRecord) : String × String × RateType × Nat :=
  (r.from_currency, r.to_currency, r.rate_type, r.date)

/-- Upsert into a keyed record list: replace the first record with the same
key, or append when the key is absent.  This is the RateStore collaborator's
upsert-by-key operation (§4.4, §6). -/
def upsertBy {ρ κ : Type} [DecidableEq κ] (key : ρ → κ) (r : ρ) : List ρ → List ρ
  | [] => [r]
  | x :: s => if key x = key r then r :: s else x :: upsertBy key r s

/-- Apply a list of upsert writes in order. -/
def applyBy {ρ κ : Type} [DecidableEq κ] (key : ρ → κ) (s ws : List ρ) : List ρ :=
  ws.foldl (fun t w => upsertBy key w t) s

/-- Look up the first record with the given key. -/
def lookupBy {ρ κ : Type} [DecidableEq κ] (key : ρ → κ) (s : List ρ) (k : κ) : Option ρ :=
  s.find? (fun x => decide (key x = k))

/-- The last write for a given key in a write list, if any. -/
def lastWriteBy {ρ κ : Type} [DecidableEq κ] (key : ρ → κ) : List ρ → κ → Option ρ
  | [], _ => none
  | w :: ws, k =>
    match lastWriteBy key ws k with
    | some x => some x
    | none => if key w = k then some w else none

/-- Modelled from the spec: the persistent state the executor writes — the
live current-rate table and the historical append log (§3, §4.4). -/
structure Store where
  current : List CurrentRecord
  history : List RateRecord
  deriving DecidableEq, Repr

/-- Apply a pair of write lists (current writes, history writes) to a store. -/
def applyStore (s : Store) (w : List CurrentRecord × List RateRecord) : Store :=
  { current := applyBy keyCur s.current w.1
    history := applyBy keyHist s.history w.2 }

/-- Modelled from the spec: SyncLogEntry statuses (§3). -/
inductive LogStatus
  | Success
  | Error
  | RateLimited
  deriving DecidableEq, Repr

/-- Modelled from the spec: a SyncLogEntry, created once per job attempt
(§3); `retry_after` records the suggested retry-after on RateLimited. -/
structure SyncLogEntry where
  from_currency : String
  to_currency : String
  rate_type : RateType
  status : LogStatus
  rate : Option ℚ
  retry_after : Option Nat
  deriving DecidableEq, Repr

/-- Modelled from the spec: the per-run executor state — store, audit log,
the indices of jobs for which a RateSource call occurred, the number of
aggregator invocations, and the run summary counters (§4.4, §6). -/
structure RunState where
  store : Store
  log : List SyncLogEntry
  calls : List Nat
  aggCalls : Nat
  jobs_succeeded : Nat
  jobs_failed : Nat
  aborted : Bool
  deriving DecidableEq, Repr

/-- The initial run state over a given store. -/
def initState (s : Store) : RunState :=
  ⟨s, [], [], 0, 0, 0, false⟩

/-- Rounding to the 6-decimal display/storage precision used throughout the
system (§4.3). -/
def round6 (q : ℚ) : ℚ :=
  ((round (q * 1000000) : ℤ) : ℚ) / 1000000

/-- The aggregated rate a job's rate type selects from the monthly rates. -/
def rateOf (m : MonthlyRates) : RateType → ℚ
  | .Spot => m.closing
  | .Closing => m.closing
  | .MonthlyAverage => m.average
  | .PrudencyHigh => m.prudency_high
  | .PrudencyLow => m.prudency_low

/-- Modelled from the spec: the writes of one successful job — the forward
current and history records, plus, in bidirectional mode, the reciprocal
records for the swapped pair at the same date, computed as `1 / value`
after the forward value has been rounded (§4.3, §4.4). -/
def successWrites (cfg : ForexConfig) (job : SyncJob) (v : ℚ) :
    List CurrentRecord × List RateRecord :=
  if cfg.bidirectional then
    let rv := round6 (1 / v)
    ([⟨job.from_currency, job.to_currency, job.date, v⟩,
      ⟨job.to_currency, job.from_currency, job.date, rv⟩],
     [⟨job.from_currency, job.to_currency, job.rate_type, job.date, v⟩,
      ⟨job.to_currency, job.from_currency, job.rate_type, job.date, rv⟩])
  else
    ([⟨job.from_currency, job.to_currency, job.date, v⟩],
     [⟨job.from_currency, job.to_currency, job.rate_type, job.date, v⟩])

/-- The store writes one job performs, as a function of the oracle reply
alone: a successful spot reply writes the rounded spot rate, a successful
series reply writes the aggregated rate for the job's rate type, failures
write nothing. -/
def jobWrites (cfg : ForexConfig) (oracle : Nat → Nat → SourceReply) (idx : Nat)
    (job : SyncJob) : List CurrentRecord × List RateRecord :=
  match jobReply cfg oracle idx with
  | .spot r => successWrites cfg job (round6 r)
  | .series obs =>
    match aggregate obs with
    | .ok m => successWrites cfg job (round6 (rateOf m job.rate_type))
    | .error _ => ([], [])
  | .failure _ => ([], [])

/-- Whether job `idx` ends the run: true exactly when its final reply is
RateLimited (§4.4). -/
def jobAborts (cfg : ForexConfig) (oracle : Nat → Nat → SourceReply) (idx : Nat) : Bool :=
  match jobReply cfg oracle idx with
  | .failure (.RateLimited _) => true
  | _ => false

/-- Modelled from the spec: the SyncExecutor's processing of one job (§4.4):
skipped outright when the run is aborted; RateLimited fails the job, logs
status RateLimited with the suggested retry-after, and aborts the run;
other failures log status Error without aborting; successes commit their
writes and log status Success.  Series replies invoke the aggregator
exactly once; its contract violations fail the job without retry (§7). -/
def execJob (cfg : ForexConfig) (oracle : Nat → Nat → SourceReply) (idx : Nat)
    (job : SyncJob) (st : RunState) : RunState :=
  if st.aborted then st else
  match jobReply cfg oracle idx with
  | .failure (.RateLimited ra) =>
    { st with calls := st.calls ++ [idx]
              log := st.log ++
                [⟨job.from_currency, job.to_currency, job.rate_type, .RateLimited, none, ra⟩]
              jobs_failed := st.jobs_failed + 1
              aborted := true }
  | .failure _ =>
    { st with calls := st.calls ++ [idx]
              log := st.log ++
                [⟨job.from_currency, job.to_currency, job.rate_type, .Error, none, none⟩]
              jobs_failed := st.jobs_failed + 1 }
  | .spot r =>
    let v := round6 r
    { st with calls := st.calls ++ [idx]
              store := applyStore st.store (successWrites cfg job v)
              log := st.log ++
                [⟨job.from_currency, job.to_currency, job.rate_type, .Success, some v, none⟩]
              jobs_succeeded := st.jobs_succeeded + 1 }
  | .series obs =>
    match aggregate obs with
    | .error _ =>
      { st with calls := st.calls ++ [idx]
                aggCalls := st.aggCalls + 1
                log := st.log ++
                  [⟨job.from_currency, job.to_currency, job.rate_type, .Error, none, none⟩]
                jobs_failed := st.jobs_failed + 1 }
    | .ok m =>
      let v := round6 (rateOf m job.rate_type)
      { st with calls := st.calls ++ [idx]
                aggCalls := st.aggCalls + 1
                store := applyStore st.store (successWrites cfg job v)
                log := st.log ++
                  [⟨job.from_currency, job.to_currency, job.rate_type, .Success, some v, none⟩]
                jobs_succeeded := st.jobs_succeeded + 1 }

/-- Modelled from the spec: serial, single-threaded execution of the jobs of
a run starting at job index `i` (§4.4, §5). -/
def execFrom (cfg : ForexConfig) (oracle : Nat → Nat → SourceReply) :
    Nat → List SyncJob → RunState → RunState
  | _, [], st => st
  | i, j :: rest, st => execFrom cfg oracle (i + 1) rest (execJob cfg oracle i j st)

/-- The accumulated store writes of a run, as a function of the oracle
replies alone; accumulation stops at the first aborting job. -/
def runWrites (cfg : ForexConfig) (oracle : Nat → Nat → SourceReply) :
    Nat → List SyncJob → List CurrentRecord × List RateRecord
  | _, [] => ([], [])
  | i, j :: rest =>
    if jobAborts cfg oracle i then jobWrites cfg oracle i j
    else ((jobWrites cfg oracle i j).1 ++ (runWrites cfg oracle (i + 1) rest).1,
          (jobWrites cfg oracle i j).2 ++ (runWrites cfg oracle (i + 1) rest).2)

/-- Modelled from the spec: the `run_daily_sync` entry point (§6) — execute
the daily plan for date `d` over the given store. -/
def run_daily_sync (cfg : ForexConfig) (oracle : Nat → Nat → SourceReply) (d : Nat)
    (s : Store) : RunState :=
  execFrom cfg oracle 0 (sync_plan cfg (.Daily d)) (initState s)

/-- A host Currency Exchange record as queried by
`peasforex.get_exchange_rate` (peasforex.js): pair, rate, date. -/
structure CurrencyExchange where
  from_currency : String
  to_currency : String
  exchange_rate : ℚ
  date : Nat
  deriving DecidableEq, Repr

/-- Descending-date comparison used to model the query's
`order_by: "date desc"`. -/
def dateGE (a b : CurrencyExchange) : Prop :=
  b.date ≤ a.date

instance : DecidableRel dateGE :=
  fun a b => inferInstanceAs (Decidable (b.date ≤ a.date))

instance : IsTotal CurrencyExchange dateGE :=
  ⟨fun a b => le_total b.date a.date⟩

instance : IsTrans CurrencyExchange dateGE :=
  ⟨fun _ _ _ h1 h2 => le_trans h2 h1⟩

/-- The records matching the query filters
`{from_currency: from_currency, to_currency: to_currency}` of
`peasforex.get_exchange_rate` (peasforex.js, lines 11-20). -/
def matchingRecords (db : List CurrencyExchange) (f t : String) : List CurrencyExchange :=
  db.filter (fun x => decide (x.from_currency = f ∧ x.to_currency = t))

/-- The single callback argument `peasforex.get_exchange_rate` produces:
the `exchange_rate` of the first row of the date-descending query
(`limit_page_length: 1`), or none when the result list is empty. -/
def spotLookup (db : List CurrencyExchange) (f t : String) : Option ℚ :=
  match List.insertionSort dateGE (matchingRecords db f t) with
  | [] => none
  | x :: _ => some x.exchange_rate

/-- Embedded from src/peasforex/peasforex/public/js/peasforex.js lines 9-30:
`get_exchange_rate(from_currency, to_currency, callback)` queries Currency
Exchange filtered by the pair, ordered by date descending, limited to one
row, and invokes the callback with the row's rate or with null. -/
def get_exchange_rate {β : Type} (db : List CurrencyExchange) (f t : String)
    (callback : Option ℚ → β) : β :=
  match List.insertionSort dateGE (matchingRecords db f t) with
  | [] => callback none
  | x :: _ => callback (some x.exchange_rate)

/-- A `currency_pairs` child-table row as built by `add_default_pairs`
(Forex Settings form script); the flags are the 0/1 check values the
JavaScript assigns. -/
structure PairRow where
  from_currency : String
  to_currency : String
  enabled : Nat
  sync_spot_daily : Nat
  sync_closing_monthly : Nat
  sync_average_monthly : Nat
  sync_prudency_monthly : Nat
  deriving DecidableEq, Repr

/-- Embedded from the Forex Settings form script (src/unnamed/part_001 lines
317-326): the eight default currency pairs. -/
def default_pairs : List (String × String) :=
  [("GBP", "UGX"), ("GBP", "ZMW"), ("GBP", "GHS"), ("GBP", "USD"),
   ("USD", "UGX"), ("USD", "ZMW"), ("DKK", "GBP"), ("EUR", "GBP")]

/-- The dedup key the script builds: the template string
`from_currency + "-" + to_currency`. -/
def pairKey (f t : String) : String :=
  f ++ "-" ++ t

/-- The row `add_default_pairs` appends for a missing default pair: enabled
and all four sync flags set to 1. -/
def defaultRow (p : String × String) : PairRow :=
  ⟨p.1, p.2, 1, 1, 1, 1, 1⟩

/-- The rows appended (and the count) for the default pairs whose key is not
in the pre-computed set of existing keys; the set is fixed before any row is
added, as in the script. -/
def addMissing (existing : List String) : List (String × String) → List PairRow × Nat
  | [] => ([], 0)
  | p :: ps =>
    if pairKey p.1 p.2 ∈ existing then addMissing existing ps
    else
      let r := addMissing existing ps
      (defaultRow p :: r.1, r.2 + 1)

/-- Embedded from the Forex Settings form script (src/unnamed/part_001 lines
315-363): collect the existing pairs' keys, then append a fully-flagged row
for each default pair whose key is absent, returning the new table and the
number of rows added. -/
def add_default_pairs (rows : List PairRow) : List PairRow × Nat :=
  let existing := rows.map (fun r => pairKey r.from_currency r.to_currency)
  let r := addMissing existing default_pairs
  (rows ++ r.1, r.2)

/-- A row of the Exchange Rate History report result consumed by
`get_chart_data` (src/unnamed/part_001 lines 78-151). -/
structure ReportRow where
  from_currency : String
  to_currency : String
  rate_date : Nat
  exchange_rate : ℚ
  deriving DecidableEq, Repr

/-- The dataset grouping key the script builds:
`row.from_currency + " → " + row.to_currency`. -/
def rowLabel (r : ReportRow) : String :=
  r.from_currency ++ " → " ++ r.to_currency

/-- Deduplication keeping the first occurrence, matching JavaScript `Set`
iteration order and object-key insertion order. -/
def firstDedup {α : Type} [DecidableEq α] : List α → List α
  | [] => []
  | x :: xs => x :: firstDedup (xs.filter (fun y => decide (y ≠ x)))
termination_by l => l.length
decreasing_by
  simp only [List.length_cons]
  exact Nat.lt_succ_of_le (List.length_filter_le _ _)

/-- The distinct pair labels, in first-occurrence order (JavaScript object
key insertion order). -/
def chartPairs (result : List ReportRow) : List String :=
  firstDedup (result.map rowLabel)

/-- The distinct dates across all rows, sorted ascending
(`Array.from(label_set).sort()`). -/
def chartDates (result : List ReportRow) : List Nat :=
  List.insertionSort (fun a b => a ≤ b) (firstDedup (result.map (fun r => r.rate_date)))

/-- The chart cell for one pair and one date: the last matching row's rate
(later rows overwrite `datasets[pair][date]`), or 0 when the pair has no
observation at that date (`datasets[pair][date] || 0`). -/
def cellValue (result : List ReportRow) (pair : String) (d : Nat) : ℚ :=
  match (result.filter (fun r => decide (rowLabel r = pair ∧ r.rate_date = d))).getLast? with
  | some r => r.exchange_rate
  | none => 0

/-- One chart dataset: the pair label and one value per distinct date. -/
structure ChartDataset where
  name : String
  values : List ℚ
  deriving DecidableEq, Repr

/-- The chart payload: the sorted date labels and one dataset per pair. -/
structure ChartData where
  labels : List Nat
  datasets : List ChartDataset
  deriving DecidableEq, Repr

/-- Embedded from src/unnamed/part_001 lines 78-151 (and the equivalent
src/unnamed/part_000 lines 96-158): `get_chart_data(columns, result)`
returns null for a missing or empty result, and otherwise groups rows by
pair label into one line dataset per pair, with one value per distinct date
and 0 where a pair has no observation. -/
def get_chart_data : Option (List ReportRow) → Option ChartData
  | none => none
  | some result =>
    if result.isEmpty then none
    else
      some { labels := chartDates result
             datasets := (chartPairs result).map
               (fun p => ⟨p, (chartDates result).map (cellValue result p)⟩) }

/-- A concrete two-day observation series (dates 1 and 2, closes 2 and 3)
used to evaluate the aggregator on a concrete input. -/
def obsW : List Observation :=
  [⟨1, 2, 2, 2, 2⟩, ⟨2, 3, 3, 3, 3⟩]

/-- A concrete series with two observations sharing date 5. -/
def obsDupW : List Observation :=
  [⟨5, 1, 1, 1, 1⟩, ⟨5, 2, 2, 2, 2⟩]

/-- A concrete configuration with no pairs, unidirectional, retry budget 2. -/
def cfgW : ForexConfig :=
  ⟨[], false, 2⟩

/-- A concrete bidirectional configuration. -/
def cfgBW : ForexConfig :=
  ⟨[], true, 2⟩

/-- A concrete configuration with one fully-enabled pair and one disabled
pair. -/
def cfgPW : ForexConfig :=
  ⟨[⟨"GBP", "UGX", true, true, true, true, true⟩,
    ⟨"USD", "ZMW", false, true, true, true, true⟩], false, 2⟩

/-- A concrete empty store. -/
def storeW : Store :=
  ⟨[], []⟩

/-- A concrete spot job. -/
def jobW : SyncJob :=
  ⟨"GBP", "UGX", .Spot, 7⟩

/-- An oracle that always answers with an empty daily series. -/
def oracleEmptyW : Nat → Nat → SourceReply :=
  fun _ _ => .series []

/-- An oracle that always answers with the duplicate-date series. -/
def oracleDupW : Nat → Nat → SourceReply :=
  fun _ _ => .series obsDupW

/-- An oracle that always answers with a spot rate of 5. -/
def oracleSpotW : Nat → Nat → SourceReply :=
  fun _ _ => .spot 5

/-- An oracle that is rate-limited on job 1 and succeeds elsewhere. -/
def oracleRLW : Nat → Nat → SourceReply :=
  fun idx _ => if idx = 1 then .failure (.RateLimited (some 60)) else .spot 5

/-- An oracle on which every fetch fails permanently. -/
def oracleFailW : Nat → Nat → SourceReply :=
  fun _ _ => .failure .RateUnavailable

/-- A concrete four-job run. -/
def jobsW : List SyncJob :=
  [⟨"GBP", "UGX", .Spot, 7⟩, ⟨"GBP", "ZMW", .Spot, 7⟩,
   ⟨"GBP", "GHS", .Spot, 7⟩, ⟨"GBP", "USD", .Spot, 7⟩]

/-- A concrete Currency Exchange table with two GBP→UGX rows and one
USD→UGX row. -/
def dbW : List CurrencyExchange :=
  [⟨"GBP", "UGX", 5, 10⟩, ⟨"GBP", "UGX", 6, 11⟩, ⟨"USD", "UGX", 7, 12⟩]

/-- A concrete currency_pairs table already holding one default pair. -/
def rowsW : List PairRow :=
  [⟨"GBP", "UGX", 1, 1, 1, 1, 1⟩]

/-- A concrete report result with two pairs over two dates. -/
def resW : List ReportRow :=
  [⟨"GBP", "UGX", 1, 5⟩, ⟨"GBP", "ZMW", 2, 6⟩]

/-!
Part 2: theorems.  First the theory of the keyed upsert store, then the
aggregator, planner and executor lemmas, then one theorem per claim with
its witness.
-/

theorem keys_upsertBy {ρ κ : Type} [DecidableEq κ] (key : ρ → κ) (r : ρ) (s : List ρ) :
    (upsertBy key r s).map key =
      if key r ∈ s.map key then s.map key else s.map key ++ [key r] := by
  induction s with
  | nil => simp [upsertBy]
  | cons x s ih =>
    by_cases hx : key x = key r
    · simp [upsertBy, hx]
    · have hxr : ¬ key r = key x := fun h => hx h.symm
      by_cases hm : key r ∈ s.map key
      · simp [upsertBy, hx, ih, hm, hxr]
      · simp [upsertBy, hx, ih, hm, hxr]

theorem lookupBy_upsertBy {ρ κ : Type} [DecidableEq κ] (key : ρ → κ) (r : ρ) (s : List ρ)
    (k : κ) :
    lookupBy key (upsertBy key r s) k =
      if k = key r then some r else lookupBy key s k := by
  induction s with
  | nil =>
    by_cases hk : k = key r <;> simp [upsertBy, lookupBy, List.find?, hk, Ne.symm]
  | cons x s ih =>
    by_cases hx : key x = key r
    · by_cases hk : k = key r
      · simp [upsertBy, hx, lookupBy, List.find?, hk]
      · simp only [upsertBy, if_pos hx, lookupBy, List.find?]
        have h1 : (decide (key r = k)) = false := by
          simpa using fun h => hk h.symm
        have h2 : (decide (key x = k)) = false := by
          simpa using fun h => hk (hx ▸ h).symm
        simp [h1, h2, if_neg hk]
    · simp only [upsertBy, if_neg hx, lookupBy, List.find?]
      by_cases hxk : key x = k
      · have hk : ¬ k = key r := fun h => hx (by rw [hxk, h])
        simp [hxk, if_neg hk]
      · have h2 : (decide (key x = k)) = false := by simpa using hxk
        simpa [h2, lookupBy] using ih

theorem nodup_keys_upsertBy {ρ κ : Type} [DecidableEq κ] (key : ρ → κ) (r : ρ) (s : List ρ)
    (h : (s.map key).Nodup) : ((upsertBy key r s).map key).Nodup := by
  rw [keys_upsertBy]
  by_cases hm : key r ∈ s.map key
  · simpa [hm] using h
  · simp [hm, List.nodup_append, h]

theorem applyBy_cons {ρ κ : Type} [DecidableEq κ] (key : ρ → κ) (s : List ρ) (w : ρ)
    (ws : List ρ) : applyBy key s (w :: ws) = applyBy key (upsertBy key w s) ws := rfl

theorem applyBy_append {ρ κ : Type} [DecidableEq κ] (key : ρ → κ) (s ws₁ ws₂ : List ρ) :
    applyBy key s (ws₁ ++ ws₂) = applyBy key (applyBy key s ws₁) ws₂ :=
  List.foldl_append _ _ _ _

theorem lookupBy_applyBy {ρ κ : Type} [DecidableEq κ] (key : ρ → κ) (ws : List ρ)
    (s : List ρ) (k : κ) :
    lookupBy key (applyBy key s ws) k =
      match lastWriteBy key ws k with
      | some w => some w
      | none => lookupBy key s k := by
  induction ws generalizing s with
  | nil => simp [applyBy, lastWriteBy]
  | cons w ws ih =>
    rw [applyBy_cons, ih]
    cases hlw : lastWriteBy key ws k with
    | some x => simp [lastWriteBy, hlw]
    | none =>
      rw [lookupBy_upsertBy]
      by_cases hk : k = key w
      · subst hk
        simp [lastWriteBy, hlw]
      · have hwk : ¬ key w = k := fun h => hk h.symm
        simp [lastWriteBy, hlw, hk, hwk]

theorem mem_keys_applyBy {ρ κ : Type} [DecidableEq κ] (key : ρ → κ) (ws : List ρ)
    (s : List ρ) (k : κ) (h : k ∈ s.map key) : k ∈ (applyBy key s ws).map key := by
  induction ws generalizing s with
  | nil => simpa [applyBy] using h
  | cons w ws ih =>
    rw [applyBy_cons]
    apply ih
    rw [keys_upsertBy]
    by_cases hm : key w ∈ s.map key
    · simpa [hm] using h
    · simp [hm, h]

theorem mem_keys_applyBy_of_write {ρ κ : Type} [DecidableEq κ] (key : ρ → κ) (ws : List ρ)
    (s : List ρ) (w : ρ) (h : w ∈ ws) : key w ∈ (applyBy key s ws).map key := by
  induction ws generalizing s with
  | nil => cases h
  | cons w₀ ws ih =>
    rw [applyBy_cons]
    rcases List.mem_cons.1 h with h₀ | h₀
    · subst h₀
      apply mem_keys_applyBy
      rw [keys_upsertBy]
      by_cases hm : key w ∈ s.map key <;> simp [hm]
    · exact ih _ h₀

theorem keys_applyBy_covered {ρ κ : Type} [DecidableEq κ] (key : ρ → κ) (ws : List ρ)
    (s : List ρ) (h : ∀ w ∈ ws, key w ∈ s.map key) :
    (applyBy key s ws).map key = s.map key := by
  induction ws generalizing s with
  | nil => rfl
  | cons w ws ih =>
    rw [applyBy_cons]
    have hw : key w ∈ s.map key := h w (List.mem_cons_self _ _)
    have hkeys : (upsertBy key w s).map key = s.map key := by
      rw [keys_upsertBy, if_pos hw]
    rw [ih (upsertBy key w s) (by rw [hkeys]; exact fun x hx => h x (List.mem_cons_of_mem _ hx)),
      hkeys]

theorem nodup_keys_applyBy {ρ κ : Type} [DecidableEq κ] (key : ρ → κ) (ws : List ρ)
    (s : List ρ) (h : (s.map key).Nodup) : ((applyBy key s ws).map key).Nodup := by
  induction ws generalizing s with
  | nil => exact h
  | cons w ws ih => exact ih _ (nodup_keys_upsertBy key w s h)

theorem lookupBy_eq_none {ρ κ : Type} [DecidableEq κ] (key : ρ → κ) (s : List ρ) (k : κ) :
    lookupBy key s k = none ↔ k ∉ s.map key := by
  simp only [lookupBy, List.find?_eq_none, List.mem_map, decide_eq_true_eq]
  constructor
  · rintro h ⟨x, hx, rfl⟩
    exact h x hx rfl
  · intro h x hx hk
    exact h ⟨x, hx, hk⟩

theorem store_ext {ρ κ : Type} [DecidableEq κ] (key : ρ → κ) (s t : List ρ)
    (hs : (s.map key).Nodup) (ht : (t.map key).Nodup) (hkeys : s.map key = t.map key)
    (hlook : ∀ k, lookupBy key s k = lookupBy key t k) : s = t := by
  induction s generalizing t with
  | nil =>
    cases t with
    | nil => rfl
    | cons y t => simp at hkeys
  | cons x s ih =>
    cases t with
    | nil => simp at hkeys
    | cons y t =>
      simp only [List.map_cons, List.cons.injEq] at hkeys
      obtain ⟨hxy, htl⟩ := hkeys
      have hhead : x = y := by
        have h1 := hlook (key x)
        unfold lookupBy at h1
        rw [List.find?_cons_of_pos _ (by simp), List.find?_cons_of_pos _ (by simp [hxy])] at h1
        exact Option.some.inj h1
      subst hhead
      have hs' := (List.nodup_cons.1 hs).2
      have ht' := (List.nodup_cons.1 ht).2
      have hxs : key x ∉ s.map key := (List.nodup_cons.1 hs).1
      have hxt : key x ∉ t.map key := by rw [← htl]; exact hxs
      have hlook' : ∀ k, lookupBy key s k = lookupBy key t k := by
        intro k
        by_cases hk : key x = k
        · subst hk
          rw [(lookupBy_eq_none key s _).2 hxs, (lookupBy_eq_none key t _).2 hxt]
        · have h1 := hlook k
          unfold lookupBy at h1
          rw [List.find?_cons_of_neg _ (by simp [hk]), List.find?_cons_of_neg _ (by simp [hk])]
            at h1
          exact h1
      rw [ih t hs' ht' htl hlook']

theorem applyBy_idem {ρ κ : Type} [DecidableEq κ] (key : ρ → κ) (ws : List ρ) (s : List ρ)
    (h : (s.map key).Nodup) :
    applyBy key (applyBy key s ws) ws = applyBy key s ws := by
  have hnd : ((applyBy key s ws).map key).Nodup := nodup_keys_applyBy key ws s h
  apply store_ext key _ _ (nodup_keys_applyBy key ws _ hnd) hnd
  · exact keys_applyBy_covered key ws _ (fun w hw => mem_keys_applyBy_of_write key ws s w hw)
  · intro k
    rw [lookupBy_applyBy, lookupBy_applyBy]
    cases lastWriteBy key ws k <;> simp

theorem upsertBy_append_of_not_mem {ρ κ : Type} [DecidableEq κ] (key : ρ → κ) (r : ρ)
    (s : List ρ) (h : ∀ x ∈ s, key x ≠ key r) : upsertBy key r s = s ++ [r] := by
  induction s with
  | nil => rfl
  | cons x s ih =>
    rw [upsertBy, if_neg (h x (List.mem_cons_self _ _)),
      ih (fun y hy => h y (List.mem_cons_of_mem _ hy))]
    rfl

theorem filter_upsertBy {ρ κ : Type} [DecidableEq κ] (key : ρ → κ) (r : ρ) (s : List ρ)
    (p : ρ → Bool) (hr : p r = false)
    (h : ∀ x ∈ s, key x = key r → p x = false) :
    (upsertBy key r s).filter p = s.filter p := by
  induction s with
  | nil => simp [upsertBy, hr]
  | cons x s ih =>
    by_cases hx : key x = key r
    · rw [upsertBy, if_pos hx]
      rw [List.filter_cons, List.filter_cons, hr, h x (List.mem_cons_self _ _) hx]
      simp
    · rw [upsertBy, if_neg hx, List.filter_cons, List.filter_cons,
        ih (fun y hy => h y (List.mem_cons_of_mem _ hy))]

theorem foldl_pickMax_spec (l : List Observation) (a : Observation) :
    (l.foldl (fun a b => if a.date < b.date then b else a) a = a ∨
      l.foldl (fun a b => if a.date < b.date then b else a) a ∈ l) ∧
    a.date ≤ (l.foldl (fun a b => if a.date < b.date then b else a) a).date ∧
    ∀ o ∈ l, o.date ≤ (l.foldl (fun a b => if a.date < b.date then b else a) a).date := by
  induction l generalizing a with
  | nil => simp
  | cons b l ih =>
    simp only [List.foldl_cons]
    by_cases hab : a.date < b.date
    · rw [if_pos hab]
      obtain ⟨h1, h2, h3⟩ := ih b
      refine ⟨?_, le_trans (le_of_lt hab) h2, ?_⟩
      · rcases h1 with h | h
        · exact Or.inr (List.mem_cons.2 (Or.inl h))
        · exact Or.inr (List.mem_cons.2 (Or.inr h))
      · intro o ho
        rcases List.mem_cons.1 ho with h | h
        · subst h
          exact h2
        · exact h3 o h
    · rw [if_neg hab]
      obtain ⟨h1, h2, h3⟩ := ih a
      refine ⟨?_, h2, ?_⟩
      · rcases h1 with h | h
        · exact Or.inl h
        · exact Or.inr (List.mem_cons.2 (Or.inr h))
      · intro o ho
        rcases List.mem_cons.1 ho with h | h
        · subst h
          exact le_trans (le_of_not_lt hab) h2
        · exact h3 o h

theorem foldl_max_spec (l : List Observation) (q : ℚ) :
    (l.foldl (fun m o => max m o.close) q = q ∨
      ∃ o ∈ l, l.foldl (fun m o => max m o.close) q = o.close) ∧
    q ≤ l.foldl (fun m o => max m o.close) q ∧
    ∀ o ∈ l, o.close ≤ l.foldl (fun m o => max m o.close) q := by
  induction l generalizing q with
  | nil => simp
  | cons b l ih =>
    simp only [List.foldl_cons]
    obtain ⟨h1, h2, h3⟩ := ih (max q b.close)
    refine ⟨?_, le_trans (le_max_left _ _) h2, ?_⟩
    · rcases h1 with h | ⟨o, ho, h⟩
      · rcases max_choice q b.close with hm | hm
        · exact Or.inl (by rw [h, hm])
        · exact Or.inr ⟨b, List.mem_cons_self _ _, by rw [h, hm]⟩
      · exact Or.inr ⟨o, List.mem_cons_of_mem _ ho, h⟩
    · intro o ho
      rcases List.mem_cons.1 ho with h | h
      · subst h
        exact le_trans (le_max_right _ _) h2
      · exact h3 o h

theorem foldl_min_spec (l : List Observation) (q : ℚ) :
    (l.foldl (fun m o => min m o.close) q = q ∨
      ∃ o ∈ l, l.foldl (fun m o => min m o.close) q = o.close) ∧
    l.foldl (fun m o => min m o.close) q ≤ q ∧
    ∀ o ∈ l, l.foldl (fun m o => min m o.close) q ≤ o.close := by
  induction l generalizing q with
  | nil => simp
  | cons b l ih =>
    simp only [List.foldl_cons]
    obtain ⟨h1, h2, h3⟩ := ih (min q b.close)
    refine ⟨?_, le_trans h2 (min_le_left _ _), ?_⟩
    · rcases h1 with h | ⟨o, ho, h⟩
      · rcases min_choice q b.close with hm | hm
        · exact Or.inl (by rw [h, hm])
        · exact Or.inr ⟨b, List.mem_cons_self _ _, by rw [h, hm]⟩
      · exact Or.inr ⟨o, List.mem_cons_of_mem _ ho, h⟩
    · intro o ho
      rcases List.mem_cons.1 ho with h | h
      · subst h
        exact le_trans h2 (min_le_right _ _)
      · exact h3 o h

theorem execJob_of_aborted (cfg : ForexConfig) (oracle : Nat → Nat → SourceReply) (i : Nat)
    (j : SyncJob) (st : RunState) (h : st.aborted = true) :
    execJob cfg oracle i j st = st := by
  simp [execJob, h]

theorem execFrom_of_aborted (cfg : ForexConfig) (oracle : Nat → Nat → SourceReply)
    (jobs : List SyncJob) (i : Nat) (st : RunState) (h : st.aborted = true) :
    execFrom cfg oracle i jobs st = st := by
  induction jobs generalizing i with
  | nil => rfl
  | cons j rest ih =>
    rw [execFrom, execJob_of_aborted cfg oracle i j st h, ih (i + 1)]

theorem execJob_calls (cfg : ForexConfig) (oracle : Nat → Nat → SourceReply) (i : Nat)
    (j : SyncJob) (st : RunState) :
    (execJob cfg oracle i j st).calls =
      if st.aborted then st.calls else st.calls ++ [i] := by
  by_cases h : st.aborted
  · simp [execJob, h]
  · simp only [execJob, h, Bool.false_eq_true, if_false]
    cases hr : jobReply cfg oracle i with
    | spot r => simp
    | series obs => cases hagg : aggregate obs <;> simp [hagg]
    | failure e => cases e <;> simp

theorem execFrom_calls_bound (cfg : ForexConfig) (oracle : Nat → Nat → SourceReply)
    (jobs : List SyncJob) : ∀ (i : Nat) (st : RunState),
    ∀ k ∈ (execFrom cfg oracle i jobs st).calls,
      k ∈ st.calls ∨ (i ≤ k ∧ k < i + jobs.length) := by
  induction jobs with
  | nil =>
    intro i st k hk
    exact Or.inl hk
  | cons j rest ih =>
    intro i st k hk
    rw [execFrom] at hk
    rcases ih (i + 1) (execJob cfg oracle i j st) k hk with h | ⟨h1, h2⟩
    · rw [execJob_calls] at h
      by_cases ha : st.aborted
      · rw [if_pos ha] at h
        exact Or.inl h
      · rw [if_neg ha] at h
        rcases List.mem_append.1 h with h | h
        · exact Or.inl h
        · simp only [List.mem_singleton] at h
          subst h
          right
          simp only [List.length_cons]
          omega
    · right
      simp only [List.length_cons]
      omega

theorem execFrom_append (cfg : ForexConfig) (oracle : Nat → Nat → SourceReply)
    (l₁ l₂ : List SyncJob) : ∀ (i : Nat) (st : RunState),
    execFrom cfg oracle i (l₁ ++ l₂) st =
      execFrom cfg oracle (i + l₁.length) l₂ (execFrom cfg oracle i l₁ st) := by
  induction l₁ with
  | nil =>
    intro i st
    simp [execFrom]
  | cons j l₁ ih =>
    intro i st
    rw [List.cons_append, execFrom, execFrom, ih (i + 1)]
    have harith : i + 1 + l₁.length = i + (j :: l₁).length := by
      simp only [List.length_cons]
      omega
    rw [harith]

/-- C1: for every ordered month of daily observations with N ≥ 1 and unique
dates, the aggregation succeeds; closing is the close of the maximum-date
observation, prudency_high the maximum of the closes, prudency_low the
minimum, average the mean, and prudency_high ≥ average ≥ prudency_low. -/
theorem claim_C1 (obs : List Observation) (hne : obs ≠ [])
    (hnd : (obs.map (fun o => o.date)).Nodup) :
    ∃ r, aggregate obs = .ok r ∧
      (∃ o ∈ obs, r.closing = o.close ∧ ∀ o2 ∈ obs, o2.date ≤ o.date) ∧
      (∀ o ∈ obs, o.close ≤ r.prudency_high) ∧ (∃ o ∈ obs, r.prudency_high = o.close) ∧
      (∀ o ∈ obs, r.prudency_low ≤ o.close) ∧ (∃ o ∈ obs, r.prudency_low = o.close) ∧
      r.average = (obs.map (fun o => o.close)).sum / ((obs.length : ℚ)) ∧
      r.prudency_low ≤ r.average ∧ r.average ≤ r.prudency_high := by
  cases obs with
  | nil => exact absurd rfl hne
  | cons x xs =>
    have hagg : aggregate (x :: xs) = .ok
        ⟨(xs.foldl (fun a b => if a.date < b.date then b else a) x).close,
         ((x :: xs).map (fun o => o.close)).sum / (((x :: xs).length : ℚ)),
         xs.foldl (fun m o => max m o.close) x.close,
         xs.foldl (fun m o => min m o.close) x.close⟩ := by
      simp only [aggregate, if_pos hnd]
    obtain ⟨hp1, hp2, hp3⟩ := foldl_pickMax_spec xs x
    obtain ⟨hm1, hm2, hm3⟩ := foldl_max_spec xs x.close
    obtain ⟨hl1, hl2, hl3⟩ := foldl_min_spec xs x.close
    have hHub : ∀ o ∈ x :: xs, o.close ≤ xs.foldl (fun m o => max m o.close) x.close := by
      intro o ho
      rcases List.mem_cons.1 ho with h | h
      · subst h
        exact hm2
      · exact hm3 o h
    have hLlb : ∀ o ∈ x :: xs, xs.foldl (fun m o => min m o.close) x.close ≤ o.close := by
      intro o ho
      rcases List.mem_cons.1 ho with h | h
      · subst h
        exact hl2
      · exact hl3 o h
    have hn : (0 : ℚ) < ((x :: xs).length : ℚ) := by
      have : 0 < (x :: xs).length := Nat.succ_pos _
      exact_mod_cast this
    have hub : ((x :: xs).map (fun o => o.close)).sum ≤
        ((x :: xs).length : ℚ) * xs.foldl (fun m o => max m o.close) x.close := by
      have h := List.sum_le_card_nsmul ((x :: xs).map (fun o => o.close))
        (xs.foldl (fun m o => max m o.close) x.close) ?_
      · simpa [List.length_map, nsmul_eq_mul] using h
      · intro q hq
        obtain ⟨o, ho, rfl⟩ := List.mem_map.1 hq
        exact hHub o ho
    have hlb : ((x :: xs).length : ℚ) * xs.foldl (fun m o => min m o.close) x.close ≤
        ((x :: xs).map (fun o => o.close)).sum := by
      have h := List.card_nsmul_le_sum ((x :: xs).map (fun o => o.close))
        (xs.foldl (fun m o => min m o.close) x.close) ?_
      · simpa [List.length_map, nsmul_eq_mul] using h
      · intro q hq
        obtain ⟨o, ho, rfl⟩ := List.mem_map.1 hq
        exact hLlb o ho
    refine ⟨_, hagg, ?_, ?_, ?_, ?_, ?_, rfl, ?_, ?_⟩
    · refine ⟨xs.foldl (fun a b => if a.date < b.date then b else a) x, ?_, rfl, ?_⟩
      · rcases hp1 with h | h
        · rw [h]
          exact List.mem_cons_self _ _
        · exact List.mem_cons_of_mem _ h
      · intro o2 ho2
        rcases List.mem_cons.1 ho2 with h | h
        · subst h
          exact hp2
        · exact hp3 o2 h
    · exact hHub
    · rcases hm1 with h | ⟨o, ho, h⟩
      · exact ⟨x, List.mem_cons_self _ _, h⟩
      · exact ⟨o, List.mem_cons_of_mem _ ho, h⟩
    · exact hLlb
    · rcases hl1 with h | ⟨o, ho, h⟩
      · exact ⟨x, List.mem_cons_self _ _, h⟩
      · exact ⟨o, List.mem_cons_of_mem _ ho, h⟩
    · rw [le_div_iff₀ hn]
      calc xs.foldl (fun m o => min m o.close) x.close * ((x :: xs).length : ℚ)
          = ((x :: xs).length : ℚ) * xs.foldl (fun m o => min m o.close) x.close := mul_comm _ _
        _ ≤ _ := hlb
    · rw [div_le_iff₀ hn]
      calc ((x :: xs).map (fun o => o.close)).sum
          ≤ ((x :: xs).length : ℚ) * xs.foldl (fun m o => max m o.close) x.close := hub
        _ = xs.foldl (fun m o => max m o.close) x.close * ((x :: xs).length : ℚ) := mul_comm _ _

/-- C1 witness: the aggregation contract evaluated on the concrete two-day
series `obsW`. -/
theorem claim_C1_witness :
    obsW ≠ [] ∧ ((obsW.map (fun o => o.date)).Nodup) ∧
    (∃ r, aggregate obsW = .ok r ∧
      (∃ o ∈ obsW, r.closing = o.close ∧ ∀ o2 ∈ obsW, o2.date ≤ o.date) ∧
      (∀ o ∈ obsW, o.close ≤ r.prudency_high) ∧ (∃ o ∈ obsW, r.prudency_high = o.close) ∧
      (∀ o ∈ obsW, r.prudency_low ≤ o.close) ∧ (∃ o ∈ obsW, r.prudency_low = o.close) ∧
      r.average = (obsW.map (fun o => o.close)).sum / ((obsW.length : ℚ)) ∧
      r.prudency_low ≤ r.average ∧ r.average ≤ r.prudency_high) :=
  ⟨List.cons_ne_nil _ _, by decide,
    claim_C1 obsW (List.cons_ne_nil _ _) (by decide)⟩

/-- C5: aggregating an empty sequence fails with InsufficientData, and a job
whose series fetch returns the empty sequence performs no store write and is
counted as failed, not succeeded. -/
theorem claim_C5 :
    aggregate [] = .error .InsufficientData ∧
    ∀ (cfg : ForexConfig) (oracle : Nat → Nat → SourceReply) (idx : Nat) (job : SyncJob)
      (st : RunState), jobReply cfg oracle idx = .series [] →
      (execJob cfg oracle idx job st).store = st.store ∧
      (st.aborted = false →
        (execJob cfg oracle idx job st).jobs_failed = st.jobs_failed + 1 ∧
        (execJob cfg oracle idx job st).jobs_succeeded = st.jobs_succeeded) := by
  refine ⟨rfl, ?_⟩
  intro cfg oracle idx job st hreply
  by_cases ha : st.aborted
  · rw [execJob_of_aborted cfg oracle idx job st ha]
    exact ⟨rfl, fun hf => absurd ha (by simp [hf])⟩
  · simp only [Bool.not_eq_true] at ha
    refine ⟨?_, fun _ => ⟨?_, ?_⟩⟩ <;> simp [execJob, ha, hreply, aggregate]

/-- C5 witness: the empty-series job evaluated at a concrete state. -/
theorem claim_C5_witness :
    jobReply cfgW oracleEmptyW 0 = .series [] ∧
    (execJob cfgW oracleEmptyW 0 jobW (initState storeW)).store = (initState storeW).store ∧
    (execJob cfgW oracleEmptyW 0 jobW (initState storeW)).jobs_failed =
      (initState storeW).jobs_failed + 1 ∧
    (execJob cfgW oracleEmptyW 0 jobW (initState storeW)).jobs_succeeded =
      (initState storeW).jobs_succeeded := by
  have h := claim_C5.2 cfgW oracleEmptyW 0 jobW (initState storeW) rfl
  exact ⟨rfl, h.1, (h.2 rfl).1, (h.2 rfl).2⟩

/-- C6: a series containing two observations with the same date aggregates
to InvalidInput, and the executor invokes the aggregator exactly once for
such a job — the failure is never retried — failing the job with no store
write. -/
theorem claim_C6 (obs : List Observation) (i j : Nat) (hi : i < obs.length)
    (hj : j < obs.length) (hij : i ≠ j)
    (hdate : (obs.get ⟨i, hi⟩).date = (obs.get ⟨j, hj⟩).date) :
    aggregate obs = .error .InvalidInput ∧
    ∀ (cfg : ForexConfig) (oracle : Nat → Nat → SourceReply) (idx : Nat) (job : SyncJob)
      (st : RunState), st.aborted = false → jobReply cfg oracle idx = .series obs →
      (execJob cfg oracle idx job st).aggCalls = st.aggCalls + 1 ∧
      (execJob cfg oracle idx job st).jobs_failed = st.jobs_failed + 1 ∧
      (execJob cfg oracle idx job st).store = st.store := by
  have hnotnodup : ¬ (obs.map (fun o => o.date)).Nodup := by
    intro hnd
    have hinj := List.nodup_iff_injective_get.1 hnd
    have hlen : (obs.map (fun o => o.date)).length = obs.length := List.length_map _ _
    have hval : (obs.map (fun o => o.date)).get ⟨i, by rw [hlen]; exact hi⟩ =
        (obs.map (fun o => o.date)).get ⟨j, by rw [hlen]; exact hj⟩ := by
      simp only [List.get_eq_getElem, List.getElem_map]
      simpa using hdate
    have := hinj hval
    exact hij (congrArg Fin.val this)
  have hagg : aggregate obs = .error .InvalidInput := by
    cases obs with
    | nil => simp at hi
    | cons x xs => simp only [aggregate, if_neg hnotnodup]
  refine ⟨hagg, ?_⟩
  intro cfg oracle idx job st ha hreply
  refine ⟨?_, ?_, ?_⟩ <;> simp [execJob, ha, hreply, hagg]

/-- C6 witness: the duplicate-date series `obsDupW` evaluated through the
aggregator and through a concrete executor state. -/
theorem claim_C6_witness :
    aggregate obsDupW = .error .InvalidInput ∧
    (execJob cfgW oracleDupW 0 jobW (initState storeW)).aggCalls =
      (initState storeW).aggCalls + 1 ∧
    (execJob cfgW oracleDupW 0 jobW (initState storeW)).jobs_failed =
      (initState storeW).jobs_failed + 1 ∧
    (execJob cfgW oracleDupW 0 jobW (initState storeW)).store = (initState storeW).store := by
  have h := claim_C6 obsDupW 0 1 (by decide) (by decide) (by decide) (by decide)
  have h3 := h.2 cfgW oracleDupW 0 jobW (initState storeW) rfl rfl
  exact ⟨h.1, h3.1, h3.2.1, h3.2.2⟩

/-- C2: if the RateSource call for job k of a run fails with RateLimited,
then no RateSource call occurs for any later job of the run, the run ends
aborted with at least one failed job, and the store is exactly the store
produced by the jobs before k — their writes remain committed and nothing
is rolled back. -/
theorem claim_C2 (cfg : ForexConfig) (oracle : Nat → Nat → SourceReply)
    (jobs : List SyncJob) (s : Store) (k : Nat) (ra : Option Nat)
    (hk : k < jobs.length)
    (hreply : jobReply cfg oracle k = .failure (.RateLimited ra))
    (hcalled : k ∈ (execFrom cfg oracle 0 jobs (initState s)).calls) :
    (∀ j, k < j → j ∉ (execFrom cfg oracle 0 jobs (initState s)).calls) ∧
    (execFrom cfg oracle 0 jobs (initState s)).aborted = true ∧
    1 ≤ (execFrom cfg oracle 0 jobs (initState s)).jobs_failed ∧
    (execFrom cfg oracle 0 jobs (initState s)).store =
      (execFrom cfg oracle 0 (jobs.take k) (initState s)).store := by
  have hlen : (jobs.take k).length = k := by
    rw [List.length_take]
    omega
  have hsplit : jobs = jobs.take k ++ (jobs[k] :: jobs.drop (k + 1)) := by
    conv_lhs => rw [← List.take_append_drop k jobs]
    rw [List.drop_eq_getElem_cons hk]
  have hfinal : execFrom cfg oracle 0 jobs (initState s) =
      execFrom cfg oracle (k + 1) (jobs.drop (k + 1))
        (execJob cfg oracle k (jobs[k])
          (execFrom cfg oracle 0 (jobs.take k) (initState s))) := by
    conv_lhs => rw [hsplit]
    rw [execFrom_append, hlen, Nat.zero_add, execFrom]
  by_cases hA : (execFrom cfg oracle 0 (jobs.take k) (initState s)).aborted
  · exfalso
    have hskip : execJob cfg oracle k (jobs[k])
        (execFrom cfg oracle 0 (jobs.take k) (initState s)) =
        execFrom cfg oracle 0 (jobs.take k) (initState s) :=
      execJob_of_aborted _ _ _ _ _ hA
    rw [hfinal, hskip, execFrom_of_aborted _ _ _ _ _ hA] at hcalled
    rcases execFrom_calls_bound cfg oracle (jobs.take k) 0 (initState s) k hcalled with h | h
    · simp [initState] at h
    · omega
  · simp only [Bool.not_eq_true] at hA
    have hstep : execJob cfg oracle k (jobs[k])
        (execFrom cfg oracle 0 (jobs.take k) (initState s)) =
        { execFrom cfg oracle 0 (jobs.take k) (initState s) with
          calls := (execFrom cfg oracle 0 (jobs.take k) (initState s)).calls ++ [k]
          log := (execFrom cfg oracle 0 (jobs.take k) (initState s)).log ++
            [⟨(jobs[k]).from_currency, (jobs[k]).to_currency, (jobs[k]).rate_type,
              .RateLimited, none, ra⟩]
          jobs_failed := (execFrom cfg oracle 0 (jobs.take k) (initState s)).jobs_failed + 1
          aborted := true } := by
      simp [execJob, hA, hreply]
    have hfin : execFrom cfg oracle 0 jobs (initState s) =
        { execFrom cfg oracle 0 (jobs.take k) (initState s) with
          calls := (execFrom cfg oracle 0 (jobs.take k) (initState s)).calls ++ [k]
          log := (execFrom cfg oracle 0 (jobs.take k) (initState s)).log ++
            [⟨(jobs[k]).from_currency, (jobs[k]).to_currency, (jobs[k]).rate_type,
              .RateLimited, none, ra⟩]
          jobs_failed := (execFrom cfg oracle 0 (jobs.take k) (initState s)).jobs_failed + 1
          aborted := true } := by
      rw [hfinal, hstep, execFrom_of_aborted]
      rfl
    refine ⟨?_, by rw [hfin], by rw [hfin]; exact Nat.le_add_left 1 _, by rw [hfin]⟩
    intro j hj hmem
    rw [hfin] at hmem
    simp only [List.mem_append, List.mem_singleton] at hmem
    rcases hmem with h | h
    · rcases execFrom_calls_bound cfg oracle (jobs.take k) 0 (initState s) j h with h2 | h2
      · simp [initState] at h2
      · omega
    · omega

/-- C2 witness: a four-job run whose second job is rate-limited, evaluated
concretely. -/
theorem claim_C2_witness :
    (1 < jobsW.length) ∧
    (jobReply cfgW oracleRLW 1 = .failure (.RateLimited (some 60))) ∧
    (1 ∈ (execFrom cfgW oracleRLW 0 jobsW (initState storeW)).calls) ∧
    ((∀ j, 1 < j → j ∉ (execFrom cfgW oracleRLW 0 jobsW (initState storeW)).calls) ∧
     (execFrom cfgW oracleRLW 0 jobsW (initState storeW)).aborted = true ∧
     1 ≤ (execFrom cfgW oracleRLW 0 jobsW (initState storeW)).jobs_failed ∧
     (execFrom cfgW oracleRLW 0 jobsW (initState storeW)).store =
       (execFrom cfgW oracleRLW 0 (jobsW.take 1) (initState storeW)).store) :=
  ⟨by decide, rfl, by decide,
    claim_C2 cfgW oracleRLW jobsW storeW 1 (some 60) (by decide) rfl (by decide)⟩

theorem mem_upsertBy {ρ κ : Type} [DecidableEq κ] (key : ρ → κ) (r x : ρ) (s : List ρ)
    (h : x ∈ upsertBy key r s) : x = r ∨ x ∈ s := by
  induction s with
  | nil =>
    simp only [upsertBy, List.mem_singleton] at h
    exact Or.inl h
  | cons y s ih =>
    by_cases hy : key y = key r
    · rw [upsertBy, if_pos hy] at h
      rcases List.mem_cons.1 h with h | h
      · exact Or.inl h
      · exact Or.inr (List.mem_cons_of_mem _ h)
    · rw [upsertBy, if_neg hy] at h
      rcases List.mem_cons.1 h with h | h
      · exact Or.inr (h ▸ List.mem_cons_self _ _)
      · rcases ih h with h2 | h2
        · exact Or.inl h2
        · exact Or.inr (List.mem_cons_of_mem _ h2)

/-- C3: in bidirectional mode, a job whose fetch succeeds with forward rate
r stores exactly one reverse history record for the swapped pair at the same
date, whose value is `round6 (1 / round6 r)` — the reciprocal of the
rounded forward rate; and rounding before taking the reciprocal is not the
same as rounding after (they differ at r = 1/3). -/
theorem claim_C3 (cfg : ForexConfig) (oracle : Nat → Nat → SourceReply) (idx : Nat)
    (job : SyncJob) (st : RunState) (r : ℚ)
    (hbidir : cfg.bidirectional = true)
    (hab : st.aborted = false)
    (hreply : jobReply cfg oracle idx = .spot r)
    (hne : job.from_currency ≠ job.to_currency)
    (hnorev : st.store.history.filter
      (fun h => decide (h.from_currency = job.to_currency ∧
        h.to_currency = job.from_currency ∧ h.date = job.date)) = []) :
    (execJob cfg oracle idx job st).store.history.filter
      (fun h => decide (h.from_currency = job.to_currency ∧
        h.to_currency = job.from_currency ∧ h.date = job.date)) =
      [⟨job.to_currency, job.from_currency, job.rate_type, job.date, round6 (1 / round6 r)⟩] ∧
    round6 (1 / round6 ((1 : ℚ) / 3)) ≠ round6 (1 / ((1 : ℚ) / 3)) := by
  constructor
  · have hexec : (execJob cfg oracle idx job st).store.history =
        applyBy keyHist st.store.history (successWrites cfg job (round6 r)).2 := by
      simp [execJob, hab, hreply, applyStore]
    have hnp : ∀ x ∈ st.store.history,
        ¬ (x.from_currency = job.to_currency ∧ x.to_currency = job.from_currency ∧
           x.date = job.date) := by
      intro x hx hcontra
      have := List.filter_eq_nil_iff.1 hnorev x hx
      simp only [decide_eq_true_eq] at this
      exact this hcontra
    rw [hexec]
    have hw : (successWrites cfg job (round6 r)).2 =
        [⟨job.from_currency, job.to_currency, job.rate_type, job.date, round6 r⟩,
         ⟨job.to_currency, job.from_currency, job.rate_type, job.date,
          round6 (1 / round6 r)⟩] := by
      simp [successWrites, hbidir]
    rw [hw, applyBy_cons, applyBy_cons]
    show (upsertBy keyHist
        ⟨job.to_currency, job.from_currency, job.rate_type, job.date, round6 (1 / round6 r)⟩
        (upsertBy keyHist
          ⟨job.from_currency, job.to_currency, job.rate_type, job.date, round6 r⟩
          st.store.history)).filter _ = _
    have hfwd_filter : (upsertBy keyHist
        ⟨job.from_currency, job.to_currency, job.rate_type, job.date, round6 r⟩
        st.store.history).filter
        (fun h => decide (h.from_currency = job.to_currency ∧
          h.to_currency = job.from_currency ∧ h.date = job.date)) = [] := by
      rw [filter_upsertBy]
      · exact hnorev
      · simp only [decide_eq_false_iff_not]
        intro hcontra
        exact hne hcontra.1
      · intro x hx hkey
        simp only [keyHist, Prod.mk.injEq] at hkey
        simp only [decide_eq_false_iff_not]
        intro hcontra
        exact hne (hkey.1 ▸ hcontra.1)
    have happend : upsertBy keyHist
        ⟨job.to_currency, job.from_currency, job.rate_type, job.date, round6 (1 / round6 r)⟩
        (upsertBy keyHist
          ⟨job.from_currency, job.to_currency, job.rate_type, job.date, round6 r⟩
          st.store.history) =
        (upsertBy keyHist
          ⟨job.from_currency, job.to_currency, job.rate_type, job.date, round6 r⟩
          st.store.history) ++
        [⟨job.to_currency, job.from_currency, job.rate_type, job.date,
          round6 (1 / round6 r)⟩] := by
      apply upsertBy_append_of_not_mem
      intro x hx hkey
      rcases mem_upsertBy keyHist _ x _ hx with hxf | hxs
      · subst hxf
        simp only [keyHist, Prod.mk.injEq] at hkey
        exact hne hkey.1
      · simp only [keyHist, Prod.mk.injEq] at hkey
        exact hnp x hxs ⟨hkey.1, hkey.2.1, hkey.2.2.2⟩
    rw [happend, List.filter_append, hfwd_filter, List.nil_append, List.filter_cons]
    simp
  · have h1 : round6 ((1 : ℚ) / 3) = 333333 / 1000000 := by
      unfold round6
      rw [round_eq]
      norm_num
    have h2 : round6 (1 / ((1 : ℚ) / 3)) = 3 := by
      unfold round6
      rw [round_eq]
      norm_num
    have h3 : round6 (1 / ((333333 : ℚ) / 1000000)) = 3000003 / 1000000 := by
      unfold round6
      rw [round_eq]
      norm_num
    rw [h1, h2, h3]
    norm_num

/-- C3 witness: a bidirectional spot job for GBP→UGX at rate 5, evaluated at
a concrete state. -/
theorem claim_C3_witness :
    cfgBW.bidirectional = true ∧
    (initState storeW).aborted = false ∧
    jobReply cfgBW oracleSpotW 0 = .spot 5 ∧
    jobW.from_currency ≠ jobW.to_currency ∧
    ((execJob cfgBW oracleSpotW 0 jobW (initState storeW)).store.history.filter
      (fun h => decide (h.from_currency = jobW.to_currency ∧
        h.to_currency = jobW.from_currency ∧ h.date = jobW.date)) =
      [⟨jobW.to_currency, jobW.from_currency, jobW.rate_type, jobW.date,
        round6 (1 / round6 5)⟩] ∧
     round6 (1 / round6 ((1 : ℚ) / 3)) ≠ round6 (1 / ((1 : ℚ) / 3))) :=
  ⟨rfl, rfl, rfl, by decide,
    claim_C3 cfgBW oracleSpotW 0 jobW (initState storeW) 5 rfl rfl rfl (by decide) rfl⟩

theorem applyStore_append (s : Store) (w₁ w₂ : List CurrentRecord × List RateRecord) :
    applyStore (applyStore s w₁) w₂ =
      applyStore s (w₁.1 ++ w₂.1, w₁.2 ++ w₂.2) := by
  simp [applyStore, applyBy_append]

theorem execJob_store (cfg : ForexConfig) (oracle : Nat → Nat → SourceReply) (i : Nat)
    (j : SyncJob) (st : RunState) :
    (execJob cfg oracle i j st).store =
      if st.aborted then st.store
      else applyStore st.store (jobWrites cfg oracle i j) := by
  by_cases ha : st.aborted
  · simp [execJob, ha]
  · simp only [ha, Bool.false_eq_true, if_false]
    cases hr : jobReply cfg oracle i with
    | spot r => simp [execJob, jobWrites, ha, hr]
    | series obs =>
      cases hagg : aggregate obs with
      | ok m => simp [execJob, jobWrites, ha, hr, hagg]
      | error e => simp [execJob, jobWrites, ha, hr, hagg, applyStore, applyBy]
    | failure e => cases e <;> simp [execJob, jobWrites, ha, hr, applyStore, applyBy]

theorem execJob_aborted_flag (cfg : ForexConfig) (oracle : Nat → Nat → SourceReply)
    (i : Nat) (j : SyncJob) (st : RunState) :
    (execJob cfg oracle i j st).aborted = (st.aborted || jobAborts cfg oracle i) := by
  by_cases ha : st.aborted
  · simp [execJob, ha]
  · simp only [ha, Bool.false_or]
    cases hr : jobReply cfg oracle i with
    | spot r => simp [execJob, jobAborts, ha, hr]
    | series obs =>
      cases hagg : aggregate obs <;> simp [execJob, jobAborts, ha, hr, hagg]
    | failure e => cases e <;> simp [execJob, jobAborts, ha, hr]

theorem run_store (cfg : ForexConfig) (oracle : Nat → Nat → SourceReply)
    (jobs : List SyncJob) : ∀ (i : Nat) (st : RunState), st.aborted = false →
    (execFrom cfg oracle i jobs st).store =
      applyStore st.store (runWrites cfg oracle i jobs) := by
  induction jobs with
  | nil =>
    intro i st _
    rfl
  | cons j rest ih =>
    intro i st ha
    rw [execFrom]
    by_cases habort : jobAborts cfg oracle i
    · have haborted : (execJob cfg oracle i j st).aborted = true := by
        rw [execJob_aborted_flag, ha, habort]
        rfl
      rw [execFrom_of_aborted _ _ _ _ _ haborted, execJob_store, if_neg (by rw [ha]; simp),
        runWrites, if_pos habort]
    · have hflag : (execJob cfg oracle i j st).aborted = false := by
        rw [execJob_aborted_flag, ha]
        simpa using habort
      rw [ih (i + 1) _ hflag, execJob_store, if_neg (by rw [ha]; simp), applyStore_append,
        runWrites, if_neg habort]

/-- C4: running the same daily sync twice for the same date leaves the store
exactly as after one run (the rerun overwrites rather than duplicating), and
the resulting store has exactly one current record per pair and exactly one
history record per (pair, rate_type, date). -/
theorem claim_C4 (cfg : ForexConfig) (oracle : Nat → Nat → SourceReply) (d : Nat) (s : Store)
    (hc : (s.current.map keyCur).Nodup)
    (hh : (s.history.map keyHist).Nodup) :
    (run_daily_sync cfg oracle d ((run_daily_sync cfg oracle d s).store)).store =
      (run_daily_sync cfg oracle d s).store ∧
    ((run_daily_sync cfg oracle d s).store.current.map keyCur).Nodup ∧
    ((run_daily_sync cfg oracle d s).store.history.map keyHist).Nodup := by
  have hrun : ∀ t : Store, (run_daily_sync cfg oracle d t).store =
      applyStore t (runWrites cfg oracle 0 (sync_plan cfg (.Daily d))) := by
    intro t
    exact run_store cfg oracle (sync_plan cfg (.Daily d)) 0 (initState t) rfl
  simp only [hrun]
  refine ⟨?_, ?_, ?_⟩
  · simp only [applyStore]
    rw [applyBy_idem keyCur _ _ hc, applyBy_idem keyHist _ _ hh]
  · exact nodup_keys_applyBy keyCur _ _ hc
  · exact nodup_keys_applyBy keyHist _ _ hh

/-- C4 witness: the daily sync for the fully-enabled GBP→UGX configuration
run twice over the empty store. -/
theorem claim_C4_witness :
    (storeW.current.map keyCur).Nodup ∧ (storeW.history.map keyHist).Nodup ∧
    ((run_daily_sync cfgPW oracleSpotW 7
        ((run_daily_sync cfgPW oracleSpotW 7 storeW).store)).store =
      (run_daily_sync cfgPW oracleSpotW 7 storeW).store ∧
     ((run_daily_sync cfgPW oracleSpotW 7 storeW).store.current.map keyCur).Nodup ∧
     ((run_daily_sync cfgPW oracleSpotW 7 storeW).store.history.map keyHist).Nodup) :=
  ⟨by decide, by decide, claim_C4 cfgPW oracleSpotW 7 storeW (by decide) (by decide)⟩

theorem pairMonthJobs_pair (m : Nat) (p : CurrencyPair) :
    ∀ j ∈ pairMonthJobs m p,
      j.from_currency = p.from_currency ∧ j.to_currency = p.to_currency := by
  intro j hj
  simp only [pairMonthJobs, List.mem_append, List.mem_ite_nil_right, List.mem_singleton,
    List.mem_cons, List.not_mem_nil, or_false] at hj
  rcases hj with (⟨_, rfl⟩ | ⟨_, rfl⟩) | ⟨_, rfl | rfl⟩ <;> exact ⟨rfl, rfl⟩

theorem pairJobs_pair (mode : SyncMode) (p : CurrencyPair) :
    ∀ j ∈ pairJobs mode p,
      j.from_currency = p.from_currency ∧ j.to_currency = p.to_currency := by
  intro j hj
  cases mode with
  | Daily d =>
    simp only [pairJobs, pairSpotJob, List.mem_ite_nil_right, List.mem_singleton] at hj
    obtain ⟨_, rfl⟩ := hj
    exact ⟨rfl, rfl⟩
  | Monthly m => exact pairMonthJobs_pair m p j hj
  | Backfill n e =>
    simp only [pairJobs, List.mem_flatMap] at hj
    obtain ⟨i, _, hj⟩ := hj
    exact pairMonthJobs_pair _ p j hj

theorem pairSpotJob_rateTypes (d : Nat) (p : CurrencyPair) :
    ((pairSpotJob d p).map (fun j => j.rate_type)).Sublist rateTypeOrder := by
  by_cases h : p.sync_spot_daily <;> simp [pairSpotJob, h, rateTypeOrder]

theorem pairMonthJobs_rateTypes (m : Nat) (p : CurrencyPair) :
    ((pairMonthJobs m p).map (fun j => j.rate_type)).Sublist rateTypeOrder := by
  by_cases h1 : p.sync_closing_monthly <;> by_cases h2 : p.sync_average_monthly <;>
    by_cases h3 : p.sync_prudency_monthly <;>
    simp only [pairMonthJobs, h1, h2, h3, Bool.false_eq_true, if_true, if_false,
      List.append_nil, List.nil_append, List.map_append, List.map_cons, List.map_nil] <;>
    decide

/-- C7: the planner output is a pure function of the configuration snapshot;
for daily and monthly modes every planned job belongs to an enabled pair of
the configuration, the plan is the concatenation of one job-group per
enabled pair in configuration order, and within each group the rate types
follow the fixed order Spot → Closing → MonthlyAverage → PrudencyHigh →
PrudencyLow. -/
theorem claim_C7 (cfg : ForexConfig) (d m : Nat) :
    ∀ mode ∈ ([.Daily d, .Monthly m] : List SyncMode),
      (∀ j ∈ sync_plan cfg mode, ∃ p ∈ cfg.pairs, p.enabled = true ∧
        j.from_currency = p.from_currency ∧ j.to_currency = p.to_currency) ∧
      ∃ groups : List (List SyncJob),
        sync_plan cfg mode = groups.flatten ∧
        groups.length = (enabledPairs cfg).length ∧
        ∀ (i : Nat) (hg : i < groups.length) (hp : i < (enabledPairs cfg).length),
          (∀ j ∈ groups.get ⟨i, hg⟩,
            j.from_currency = ((enabledPairs cfg).get ⟨i, hp⟩).from_currency ∧
            j.to_currency = ((enabledPairs cfg).get ⟨i, hp⟩).to_currency) ∧
          ((groups.get ⟨i, hg⟩).map (fun j => j.rate_type)).Sublist rateTypeOrder := by
  intro mode hmode
  constructor
  · intro j hj
    simp only [sync_plan, List.mem_flatMap] at hj
    obtain ⟨p, hp, hj⟩ := hj
    obtain ⟨hp1, hp2⟩ := List.mem_filter.1 hp
    exact ⟨p, hp1, hp2, pairJobs_pair mode p j hj⟩
  · refine ⟨(enabledPairs cfg).map (pairJobs mode), ?_, List.length_map _ _, ?_⟩
    · rw [sync_plan, List.flatMap_def]
    · intro i hg hp
      have hget : ((enabledPairs cfg).map (pairJobs mode)).get ⟨i, hg⟩ =
          pairJobs mode ((enabledPairs cfg).get ⟨i, hp⟩) := by
        simp
      rw [hget]
      refine ⟨pairJobs_pair mode _, ?_⟩
      simp only [List.mem_cons, List.mem_singleton, List.not_mem_nil, or_false] at hmode
      rcases hmode with rfl | rfl
      · exact pairSpotJob_rateTypes d _
      · exact pairMonthJobs_rateTypes m _

/-- C7 witness: the planner evaluated for the two-pair configuration, in
daily mode for date 7 and monthly mode for month 3. -/
theorem claim_C7_witness :
    ((∀ j ∈ sync_plan cfgPW (.Daily 7), ∃ p ∈ cfgPW.pairs, p.enabled = true ∧
        j.from_currency = p.from_currency ∧ j.to_currency = p.to_currency) ∧
      ∃ groups : List (List SyncJob),
        sync_plan cfgPW (.Daily 7) = groups.flatten ∧
        groups.length = (enabledPairs cfgPW).length ∧
        ∀ (i : Nat) (hg : i < groups.length) (hp : i < (enabledPairs cfgPW).length),
          (∀ j ∈ groups.get ⟨i, hg⟩,
            j.from_currency = ((enabledPairs cfgPW).get ⟨i, hp⟩).from_currency ∧
            j.to_currency = ((enabledPairs cfgPW).get ⟨i, hp⟩).to_currency) ∧
          ((groups.get ⟨i, hg⟩).map (fun j => j.rate_type)).Sublist rateTypeOrder) ∧
    ((∀ j ∈ sync_plan cfgPW (.Monthly 3), ∃ p ∈ cfgPW.pairs, p.enabled = true ∧
        j.from_currency = p.from_currency ∧ j.to_currency = p.to_currency) ∧
      ∃ groups : List (List SyncJob),
        sync_plan cfgPW (.Monthly 3) = groups.flatten ∧
        groups.length = (enabledPairs cfgPW).length ∧
        ∀ (i : Nat) (hg : i < groups.length) (hp : i < (enabledPairs cfgPW).length),
          (∀ j ∈ groups.get ⟨i, hg⟩,
            j.from_currency = ((enabledPairs cfgPW).get ⟨i, hp⟩).from_currency ∧
            j.to_currency = ((enabledPairs cfgPW).get ⟨i, hp⟩).to_currency) ∧
          ((groups.get ⟨i, hg⟩).map (fun j => j.rate_type)).Sublist rateTypeOrder) :=
  ⟨claim_C7 cfgPW 7 3 (.Daily 7) (by decide),
   claim_C7 cfgPW 7 3 (.Monthly 3) (by decide)⟩

/-- C8: `get_exchange_rate` invokes its callback exactly once — the call
factors as the callback applied to a single lookup value — and that value is
null exactly when no Currency Exchange record matches the pair, and
otherwise is the exchange_rate of a matching record of maximum date. -/
theorem claim_C8 (db : List CurrencyExchange) (f t : String) :
    (∀ (β : Type) (cb : Option ℚ → β),
      get_exchange_rate db f t cb = cb (spotLookup db f t)) ∧
    (spotLookup db f t = none ↔ matchingRecords db f t = []) ∧
    (∀ r : ℚ, spotLookup db f t = some r →
      ∃ x ∈ matchingRecords db f t, x.exchange_rate = r ∧
        ∀ y ∈ matchingRecords db f t, y.date ≤ x.date) := by
  have hperm := List.perm_insertionSort dateGE (matchingRecords db f t)
  refine ⟨?_, ?_, ?_⟩
  · intro β cb
    unfold get_exchange_rate spotLookup
    cases List.insertionSort dateGE (matchingRecords db f t) <;> rfl
  · unfold spotLookup
    cases hs : List.insertionSort dateGE (matchingRecords db f t) with
    | nil =>
      simp only [true_iff]
      rw [hs] at hperm
      exact (hperm.symm.eq_nil)
    | cons x l =>
      simp only [reduceCtorEq, false_iff]
      intro hmatch
      rw [hmatch] at hs
      simp [List.insertionSort] at hs
  · intro r hr
    unfold spotLookup at hr
    cases hs : List.insertionSort dateGE (matchingRecords db f t) with
    | nil =>
      rw [hs] at hr
      cases hr
    | cons x l =>
      rw [hs] at hr
      have hxr : x.exchange_rate = r := Option.some.inj hr
      have hx : x ∈ matchingRecords db f t := by
        apply hperm.mem_iff.1
        rw [hs]
        exact List.mem_cons_self _ _
      refine ⟨x, hx, hxr, ?_⟩
      intro y hy
      have hy2 : y ∈ List.insertionSort dateGE (matchingRecords db f t) := hperm.mem_iff.2 hy
      rw [hs] at hy2
      rcases List.mem_cons.1 hy2 with rfl | hy3
      · exact le_refl _
      · have hsorted := List.sorted_insertionSort dateGE (matchingRecords db f t)
        rw [hs] at hsorted
        exact (List.sorted_cons.1 hsorted).1 y hy3

/-- C8 witness: the lookup evaluated on the concrete Currency Exchange table
`dbW` for the pair GBP→UGX. -/
theorem claim_C8_witness :
    (∀ (β : Type) (cb : Option ℚ → β),
      get_exchange_rate dbW "GBP" "UGX" cb = cb (spotLookup dbW "GBP" "UGX")) ∧
    (spotLookup dbW "GBP" "UGX" = none ↔ matchingRecords dbW "GBP" "UGX" = []) ∧
    (∀ r : ℚ, spotLookup dbW "GBP" "UGX" = some r →
      ∃ x ∈ matchingRecords dbW "GBP" "UGX", x.exchange_rate = r ∧
        ∀ y ∈ matchingRecords dbW "GBP" "UGX", y.date ≤ x.date) :=
  claim_C8 dbW "GBP" "UGX"

theorem addMissing_mem (existing : List String) (ps : List (String × String)) (r : PairRow)
    (h : r ∈ (addMissing existing ps).1) :
    ∃ p ∈ ps, r = defaultRow p ∧ pairKey p.1 p.2 ∉ existing := by
  induction ps with
  | nil => cases h
  | cons q ps ih =>
    by_cases hq : pairKey q.1 q.2 ∈ existing
    · rw [addMissing, if_pos hq] at h
      obtain ⟨p, hp, h1, h2⟩ := ih h
      exact ⟨p, List.mem_cons_of_mem _ hp, h1, h2⟩
    · rw [addMissing, if_neg hq] at h
      rcases List.mem_cons.1 h with h1 | h1
      · exact ⟨q, List.mem_cons_self _ _, h1, hq⟩
      · obtain ⟨p, hp, h2, h3⟩ := ih h1
        exact ⟨p, List.mem_cons_of_mem _ hp, h2, h3⟩

theorem addMissing_covered (existing : List String) (ps : List (String × String))
    (h : ∀ p ∈ ps, pairKey p.1 p.2 ∈ existing) : addMissing existing ps = ([], 0) := by
  induction ps with
  | nil => rfl
  | cons q ps ih =>
    rw [addMissing, if_pos (h q (List.mem_cons_self _ _))]
    exact ih (fun p hp => h p (List.mem_cons_of_mem _ hp))

theorem addMissing_key_present (existing : List String) (ps : List (String × String))
    (p : String × String) (hp : p ∈ ps) :
    pairKey p.1 p.2 ∈ existing ∨ defaultRow p ∈ (addMissing existing ps).1 := by
  induction ps with
  | nil => cases hp
  | cons q ps ih =>
    rcases List.mem_cons.1 hp with rfl | hp2
    · by_cases hq : pairKey p.1 p.2 ∈ existing
      · exact Or.inl hq
      · rw [addMissing, if_neg hq]
        exact Or.inr (List.mem_cons_self _ _)
    · rcases ih hp2 with h | h
      · exact Or.inl h
      · by_cases hq : pairKey q.1 q.2 ∈ existing
        · rw [addMissing, if_pos hq]
          exact Or.inr h
        · rw [addMissing, if_neg hq]
          exact Or.inr (List.mem_cons_of_mem _ h)

/-- C9: `add_default_pairs` appends its new rows after the existing ones;
every appended row comes from the default-pair list, carries enabled and all
four sync flags set to 1, and is only added when no existing row holds the
same (from_currency, to_currency) pair; and a second run on the resulting
table adds zero rows and leaves it unchanged. -/
theorem claim_C9 (rows : List PairRow) :
    (add_default_pairs rows).1 = rows ++
      (addMissing (rows.map (fun x => pairKey x.from_currency x.to_currency))
        default_pairs).1 ∧
    (∀ r ∈ (addMissing (rows.map (fun x => pairKey x.from_currency x.to_currency))
        default_pairs).1,
      r.enabled = 1 ∧ r.sync_spot_daily = 1 ∧ r.sync_closing_monthly = 1 ∧
      r.sync_average_monthly = 1 ∧ r.sync_prudency_monthly = 1 ∧
      (r.from_currency, r.to_currency) ∈ default_pairs ∧
      ¬ ∃ x ∈ rows, x.from_currency = r.from_currency ∧
        x.to_currency = r.to_currency) ∧
    (add_default_pairs (add_default_pairs rows).1).2 = 0 ∧
    (add_default_pairs (add_default_pairs rows).1).1 = (add_default_pairs rows).1 := by
  have hcov : ∀ p ∈ default_pairs,
      pairKey p.1 p.2 ∈ (add_default_pairs rows).1.map
        (fun x => pairKey x.from_currency x.to_currency) := by
    intro p hp
    rcases addMissing_key_present
        (rows.map (fun x => pairKey x.from_currency x.to_currency)) default_pairs p hp
      with h | h
    · obtain ⟨x, hx, hkey⟩ := List.mem_map.1 h
      exact List.mem_map.2 ⟨x, List.mem_append_left _ hx, hkey⟩
    · exact List.mem_map.2 ⟨defaultRow p, List.mem_append_right _ h, rfl⟩
  have hsecond : addMissing
      ((add_default_pairs rows).1.map (fun x => pairKey x.from_currency x.to_currency))
      default_pairs = ([], 0) := addMissing_covered _ _ hcov
  refine ⟨rfl, ?_, ?_, ?_⟩
  · intro r hr
    obtain ⟨p, hp, rfl, hnot⟩ := addMissing_mem _ _ r hr
    refine ⟨rfl, rfl, rfl, rfl, rfl, by simpa [defaultRow] using hp, ?_⟩
    rintro ⟨x, hx, h1, h2⟩
    apply hnot
    apply List.mem_map.2
    refine ⟨x, hx, ?_⟩
    simp only [defaultRow] at h1 h2
    rw [pairKey, pairKey, h1, h2]
  · show (addMissing _ default_pairs).2 = 0
    rw [hsecond]
  · show (add_default_pairs rows).1 ++ (addMissing _ default_pairs).1 =
      (add_default_pairs rows).1
    rw [hsecond, List.append_nil]

/-- C9 witness: `add_default_pairs` evaluated on a table already containing
the GBP→UGX default pair. -/
theorem claim_C9_witness :
    (add_default_pairs rowsW).1 = rowsW ++
      (addMissing (rowsW.map (fun x => pairKey x.from_currency x.to_currency))
        default_pairs).1 ∧
    (∀ r ∈ (addMissing (rowsW.map (fun x => pairKey x.from_currency x.to_currency))
        default_pairs).1,
      r.enabled = 1 ∧ r.sync_spot_daily = 1 ∧ r.sync_closing_monthly = 1 ∧
      r.sync_average_monthly = 1 ∧ r.sync_prudency_monthly = 1 ∧
      (r.from_currency, r.to_currency) ∈ default_pairs ∧
      ¬ ∃ x ∈ rowsW, x.from_currency = r.from_currency ∧
        x.to_currency = r.to_currency) ∧
    (add_default_pairs (add_default_pairs rowsW).1).2 = 0 ∧
    (add_default_pairs (add_default_pairs rowsW).1).1 = (add_default_pairs rowsW).1 :=
  claim_C9 rowsW

theorem firstDedup_mem {α : Type} [DecidableEq α] (l : List α) (a : α) :
    a ∈ firstDedup l ↔ a ∈ l := by
  suffices H : ∀ (n : Nat) (l : List α), l.length ≤ n → (a ∈ firstDedup l ↔ a ∈ l) from
    H l.length l le_rfl
  intro n
  induction n with
  | zero =>
    intro l hl
    rw [List.length_eq_zero.1 (Nat.le_zero.1 hl)]
    simp [firstDedup]
  | succ n ih =>
    intro l hl
    cases l with
    | nil => simp [firstDedup]
    | cons x xs =>
      rw [firstDedup]
      have hfl : (xs.filter (fun y => decide (y ≠ x))).length ≤ n := by
        have := List.length_filter_le (fun y => decide (y ≠ x)) xs
        simp only [List.length_cons] at hl
        omega
      have hrec := ih _ hfl
      constructor
      · intro h
        rcases List.mem_cons.1 h with rfl | h2
        · exact List.mem_cons_self _ _
        · exact List.mem_cons_of_mem _ (List.mem_filter.1 (hrec.1 h2)).1
      · intro h
        rcases List.mem_cons.1 h with rfl | h2
        · exact List.mem_cons_self _ _
        · by_cases hax : a = x
          · rw [hax]
            exact List.mem_cons_self _ _
          · exact List.mem_cons_of_mem _ (hrec.2 (List.mem_filter.2 ⟨h2, by simp [hax]⟩))

theorem firstDedup_nodup {α : Type} [DecidableEq α] (l : List α) :
    (firstDedup l).Nodup := by
  suffices H : ∀ (n : Nat) (l : List α), l.length ≤ n → (firstDedup l).Nodup from
    H l.length l le_rfl
  intro n
  induction n with
  | zero =>
    intro l hl
    rw [List.length_eq_zero.1 (Nat.le_zero.1 hl)]
    rw [firstDedup]
    exact List.nodup_nil
  | succ n ih =>
    intro l hl
    cases l with
    | nil =>
      rw [firstDedup]
      exact List.nodup_nil
    | cons x xs =>
      rw [firstDedup]
      have hfl : (xs.filter (fun y => decide (y ≠ x))).length ≤ n := by
        have := List.length_filter_le (fun y => decide (y ≠ x)) xs
        simp only [List.length_cons] at hl
        omega
      refine List.nodup_cons.2 ⟨?_, ih _ hfl⟩
      intro hx
      have := (firstDedup_mem _ x).1 hx
      have := (List.mem_filter.1 this).2
      simp at this

/-- C10: `get_chart_data` returns null for a missing or empty result; for a
non-empty result it returns one dataset per distinct currency-pair label,
the date labels sorted ascending without duplicates, every dataset holding
one value per distinct date across all rows, with 0 at every position whose
date has no observation for that pair. -/
theorem claim_C10 (result : List ReportRow) :
    get_chart_data none = none ∧
    get_chart_data (some []) = none ∧
    (result ≠ [] →
      ∃ chart, get_chart_data (some result) = some chart ∧
        chart.labels = chartDates result ∧
        List.Sorted (fun a b => a ≤ b) chart.labels ∧
        chart.labels.Nodup ∧
        (chart.datasets.map (fun ds => ds.name)).Nodup ∧
        (∀ pr, pr ∈ chart.datasets.map (fun ds => ds.name) ↔ pr ∈ result.map rowLabel) ∧
        ∀ ds ∈ chart.datasets,
          ds.values.length = ((result.map (fun r => r.rate_date)).toFinset).card ∧
          ∀ i, i < chart.labels.length →
            (∀ r ∈ result, ¬ (rowLabel r = ds.name ∧ r.rate_date = chart.labels.getD i 0)) →
            ds.values.getD i 0 = 0) := by
  refine ⟨rfl, rfl, ?_⟩
  intro hne
  have hie : result.isEmpty = false := List.isEmpty_eq_false.2 hne
  have hchart : get_chart_data (some result) = some
      ⟨chartDates result,
       (chartPairs result).map (fun p => ⟨p, (chartDates result).map (cellValue result p)⟩)⟩ := by
    simp [get_chart_data, hie]
  have hnames : ((chartPairs result).map
      (fun p => (⟨p, (chartDates result).map (cellValue result p)⟩ : ChartDataset))).map
      (fun ds => ds.name) = chartPairs result := by
    rw [List.map_map]
    exact List.map_id _
  have hdlen : (chartDates result).length =
      ((result.map (fun r => r.rate_date)).toFinset).card := by
    have hperm := List.perm_insertionSort (fun a b => a ≤ b)
      (firstDedup (result.map (fun r => r.rate_date)))
    have hfin : (result.map (fun r => r.rate_date)).toFinset =
        (firstDedup (result.map (fun r => r.rate_date))).toFinset := by
      apply Finset.ext
      intro a
      simp [List.mem_toFinset, firstDedup_mem]
    rw [hfin, List.toFinset_card_of_nodup (firstDedup_nodup _)]
    exact hperm.length_eq
  refine ⟨_, hchart, rfl, List.sorted_insertionSort _ _, ?_, ?_, ?_, ?_⟩
  · exact (List.perm_insertionSort _ _).nodup_iff.2 (firstDedup_nodup _)
  · rw [hnames]
    exact firstDedup_nodup _
  · intro pr
    rw [hnames]
    exact firstDedup_mem _ pr
  · intro ds hds
    obtain ⟨p, hp, rfl⟩ := List.mem_map.1 hds
    constructor
    · rw [List.length_map]
      exact hdlen
    · intro i hi hno
      have hlt : i < ((chartDates result).map (cellValue result p)).length := by
        rw [List.length_map]
        exact hi
      rw [List.getD_eq_getElem _ _ hlt, List.getElem_map]
      have hfilter : result.filter
          (fun r => decide (rowLabel r = p ∧ r.rate_date = (chartDates result)[i])) = [] := by
        apply List.filter_eq_nil_iff.2
        intro r hr
        simp only [decide_eq_true_eq]
        intro hc
        apply hno r hr
        refine ⟨hc.1, ?_⟩
        rw [List.getD_eq_getElem _ _ hi]
        exact hc.2
      rw [cellValue, hfilter]
      rfl

/-- C10 witness: the chart builder evaluated on the concrete two-row report
result `resW`. -/
theorem claim_C10_witness :
    get_chart_data none = none ∧
    get_chart_data (some []) = none ∧
    (resW ≠ [] →
      ∃ chart, get_chart_data (some resW) = some chart ∧
        chart.labels = chartDates resW ∧
        List.Sorted (fun a b => a ≤ b) chart.labels ∧
        chart.labels.Nodup ∧
        (chart.datasets.map (fun ds => ds.name)).Nodup ∧
        (∀ pr, pr ∈ chart.datasets.map (fun ds => ds.name) ↔ pr ∈ resW.map rowLabel) ∧
        ∀ ds ∈ chart.datasets,
          ds.values.length = ((resW.map (fun r => r.rate_date)).toFinset).card ∧
          ∀ i, i < chart.labels.length →
            (∀ r ∈ resW, ¬ (rowLabel r = ds.name ∧ r.rate_date = chart.labels.getD i 0)) →
            ds.values.getD i 0 = 0) :=
  claim_C10 resW
